import Mathlib

/-!
Verification development for the i18nspector localization auditor.

The definitions below are a shallow embedding of the program's core:

* `Resource` and the shared key→Resource map (`RMap`), with JavaScript
  `Map` semantics modelled by insertion-ordered association lists
  (`mapGet`, `mapSet`, `mapHas`);
* the classification engine of `index.ts` (`classifyResources`,
  `orphanReport`, `haveBlockingSourceCodeProblems`);
* the JSONC and properties resource parsers, embedded at the level of the
  visitor events / parsed-library output that the source code consumes;
* the source-code AST walker and literal resolver of
  `utils/source-code.ts` (`processNode`, `permutate`, `walkNode`);
* the base-language discoverer of `utils/resources.ts`
  (`findBaseLanguage`).

Fallible JavaScript (a thrown `TypeError`) is modelled by `Option`:
`none` is a crash.
-/

/-- One localization key, `models/Resource.ts` plus the `isIgnored` flag the
parsers set on it. `definitions` and `translations` are JavaScript `Map`s
(insertion-ordered, overwrite-by-key keeps the original position),
modelled as association lists. -/
structure Resource where
  key : String
  definitions : List (String × String) := []
  references : List String := []
  translations : List (String × String) := []
  isIgnored : Bool := false
deriving Repr, DecidableEq

/-- A fresh `new Resource(key)`. -/
def newResource (key : String) : Resource :=
  { key := key }

/-- A source-code finding, `{description, precludesStaticAnalysis}`. -/
structure Problem where
  description : String
  precludesStaticAnalysis : Bool
deriving Repr, DecidableEq

/-- The shared key→Resource map. -/
abbrev RMap := List (String × Resource)

/-- JavaScript `Map.prototype.get`: first (and only) entry with this key. -/
def mapGet {α : Type} : List (String × α) → String → Option α
  | [], _ => none
  | p :: rest, key => if p.1 == key then some p.2 else mapGet rest key

/-- JavaScript `Map.prototype.has`. -/
def mapHas {α : Type} (m : List (String × α)) (key : String) : Bool :=
  m.any (fun p => p.1 == key)

/-- JavaScript `Map.prototype.set`: overwriting an existing key keeps its
insertion position, a new key is appended at the end. -/
def mapSet {α : Type} : List (String × α) → String → α → List (String × α)
  | [], key, value => [(key, value)]
  | p :: rest, key, value =>
    if p.1 == key then (key, value) :: rest else p :: mapSet rest key value

theorem mapGet_mapSet {α : Type} (m : List (String × α)) (k k' : String) (v : α) :
    mapGet (mapSet m k v) k' = if k' == k then some v else mapGet m k' := by
  induction m with
  | nil =>
    by_cases h : k' = k
    · simp [mapSet, mapGet, h]
    · simp [mapSet, mapGet, h, Ne.symm h]
  | cons p rest ih =>
    by_cases hp : p.1 = k
    · by_cases h : k' = k
      · simp [mapSet, mapGet, hp, h]
      · simp [mapSet, mapGet, hp, h, Ne.symm h]
    · by_cases h : k' = k
      · subst h
        simp [mapSet, mapGet, hp, ih, Ne.symm hp]
      · by_cases hp' : p.1 = k' <;> simp [mapSet, mapGet, hp, hp', ih, h]

theorem mapGet_mapSet_self {α : Type} (m : List (String × α)) (k : String) (v : α) :
    mapGet (mapSet m k v) k = some v := by
  simp [mapGet_mapSet]

theorem mapGet_mapSet_other {α : Type} (m : List (String × α)) (k k' : String) (v : α)
    (h : k' ≠ k) : mapGet (mapSet m k v) k' = mapGet m k' := by
  simp [mapGet_mapSet, h]

/-- JavaScript `String.prototype.startsWith`, implemented structurally on the
character list so that concrete instances evaluate inside the kernel. -/
def strStartsWith (s pre : String) : Bool :=
  pre.data.isPrefixOf s.data

/-- JavaScript `String.prototype.endsWith`, implemented structurally. -/
def strEndsWith (s suf : String) : Bool :=
  suf.data.isSuffixOf s.data

/-- The two feature toggles the classification engine reads from `options`. -/
structure RunOptions where
  checkForOrphanedStrings : Bool
  checkForUntranslatedStrings : Bool
deriving Repr, DecidableEq

/-- Output of the classification loop of `index.ts`. -/
structure ClassifyResult where
  definedResources : List Resource
  orphanedResources : List Resource
  untranslatedResources : List (List String × Resource)
deriving Repr, DecidableEq

/-- `index.ts`: `sourceCodeProblems.reduce((count, problem) => (count +=
+problem.precludesStaticAnalysis), 0)`. -/
def haveBlockingSourceCodeProblems (problems : List Problem) : Nat :=
  problems.foldl (fun count p => count + (if p.precludesStaticAnalysis then 1 else 0)) 0

/-- `index.ts`: `optionalResourcePaths.some((optionalResourcePath) =>
resource.definitions.values().next().value.startsWith(optionalResourcePath))`.
With no optional paths the `some` callback never runs; otherwise the first
inserted definition value is dereferenced, and when `definitions` is empty
that value is `undefined` and `.startsWith` throws (`none`). -/
def isInOptionalResourcePath (optionalResourcePaths : List String) (r : Resource) :
    Option Bool :=
  match optionalResourcePaths with
  | [] => some false
  | _ :: _ =>
    match r.definitions.head? with
    | none => none
    | some (_, location) =>
      some (optionalResourcePaths.any (fun path => strStartsWith location path))

/-- The `for (const languageTag of resourceFilesByLanguageTag.keys())` loop
collecting the tags for which this resource has no translation. -/
def missingLanguageTags (languageTags : List String) (r : Resource) : List String :=
  languageTags.foldl
    (fun missing tag => if !(mapHas r.translations tag) then missing ++ [tag] else missing)
    []

/-- One iteration of the `for (const resource of resources.values())`
classification loop of `index.ts`. -/
def classifyStep (opts : RunOptions) (optionalResourcePaths : List String)
    (fatalCount : Nat) (languageTags : List String) (acc : ClassifyResult)
    (r : Resource) : Option ClassifyResult := do
  let acc := if r.definitions.length != 0 then
    { acc with definedResources := acc.definedResources ++ [r] } else acc
  let acc ←
    if opts.checkForOrphanedStrings && fatalCount == 0 && !r.isIgnored
        && r.references.isEmpty then do
      let inOptional ← isInOptionalResourcePath optionalResourcePaths r
      pure (if !inOptional then
        { acc with orphanedResources := acc.orphanedResources ++ [r] } else acc)
    else pure acc
  let acc := if opts.checkForUntranslatedStrings then
    if r.translations.length != 0 && r.translations.length < languageTags.length then
      { acc with untranslatedResources :=
          acc.untranslatedResources ++ [(missingLanguageTags languageTags r, r)] }
    else acc
  else acc
  pure acc

/-- The classification loop of `index.ts` over every resource in the shared
map, in iteration order. `languageTags` is the key list of
`resourceFilesByLanguageTag`. -/
def classifyResources (opts : RunOptions) (optionalResourcePaths : List String)
    (fatalCount : Nat) (languageTags : List String) (resources : List Resource) :
    Option ClassifyResult :=
  resources.foldlM (classifyStep opts optionalResourcePaths fatalCount languageTags)
    ⟨[], [], []⟩

/-- What the orphaned-strings section of the report shows. -/
inductive OrphanReport where
  | silent
  | cannotAnalyze
  | listed (resources : List Resource)
deriving Repr, DecidableEq

/-- The orphaned-strings reporting block of `index.ts`: the section appears if
there are orphans or (orphan checking is on and a blocking problem exists);
inside it, a blocking problem prints the single "cannot be analyzed"
diagnostic instead of the orphan list. -/
def orphanReport (opts : RunOptions) (fatalCount : Nat)
    (orphanedResources : List Resource) : OrphanReport :=
  if orphanedResources.length != 0 || (opts.checkForOrphanedStrings && fatalCount != 0) then
    if fatalCount != 0 then .cannotAnalyze
    else if orphanedResources.length != 0 then .listed orphanedResources
    else .silent
  else .silent

theorem haveBlocking_foldl_ge (problems : List Problem) (acc : Nat) :
    acc ≤ problems.foldl
      (fun count p => count + (if p.precludesStaticAnalysis then 1 else 0)) acc := by
  induction problems generalizing acc with
  | nil => exact Nat.le_refl acc
  | cons p rest ih => exact Nat.le_trans (Nat.le_add_right _ _) (ih _)

theorem haveBlocking_foldl_pos (problems : List Problem) (acc : Nat) (p : Problem)
    (hmem : p ∈ problems) (hp : p.precludesStaticAnalysis = true) :
    1 ≤ problems.foldl
      (fun count q => count + (if q.precludesStaticAnalysis then 1 else 0)) acc := by
  induction problems generalizing acc with
  | nil => cases hmem
  | cons q rest ih =>
    rcases List.mem_cons.mp hmem with rfl | hmem'
    · simp only [List.foldl_cons, hp, if_true]
      exact Nat.le_trans (by omega) (haveBlocking_foldl_ge rest _)
    · exact ih _ hmem'

theorem haveBlockingSourceCodeProblems_ne_zero (problems : List Problem)
    (h : ∃ p ∈ problems, p.precludesStaticAnalysis = true) :
    haveBlockingSourceCodeProblems problems ≠ 0 := by
  obtain ⟨p, hmem, hp⟩ := h
  have := haveBlocking_foldl_pos problems 0 p hmem hp
  unfold haveBlockingSourceCodeProblems
  omega

theorem classifyStep_fatal (opts : RunOptions) (optPaths : List String)
    (fatalCount : Nat) (tags : List String) (h : fatalCount ≠ 0)
    (acc : ClassifyResult) (r : Resource) :
    ∃ acc', classifyStep opts optPaths fatalCount tags acc r = some acc'
      ∧ acc'.orphanedResources = acc.orphanedResources := by
  have hc : (fatalCount == 0) = false := by simp [h]
  simp only [classifyStep, hc, Bool.and_false, Bool.false_and, if_false]
  refine ⟨_, rfl, ?_⟩
  repeat' split
  all_goals rfl

theorem classify_foldl_fatal (opts : RunOptions) (optPaths : List String)
    (fatalCount : Nat) (tags : List String) (h : fatalCount ≠ 0)
    (rs : List Resource) :
    ∀ acc : ClassifyResult,
      ∃ res, rs.foldlM (classifyStep opts optPaths fatalCount tags) acc = some res
        ∧ res.orphanedResources = acc.orphanedResources := by
  induction rs with
  | nil => exact fun acc => ⟨acc, rfl, rfl⟩
  | cons r rest ih =>
    intro acc
    obtain ⟨acc', hstep, horph⟩ := classifyStep_fatal opts optPaths fatalCount tags h acc r
    obtain ⟨res, hrest, horph'⟩ := ih acc'
    exact ⟨res, by simp [List.foldlM, hstep, hrest], by rw [horph', horph]⟩

/-- C1: if at least one recorded source-code problem has
`precludesStaticAnalysis = true`, the classification engine puts no Resource
in the orphaned list — regardless of how many resources have zero
references — and (when orphan checking is enabled) the orphaned-strings
section of the report is the single "cannot be analyzed" diagnostic instead
of any orphan results. -/
theorem c1_fatal_problem_suppresses_orphan_detection
    (opts : RunOptions) (optPaths : List String) (problems : List Problem)
    (tags : List String) (rs : List Resource)
    (hfatal : ∃ p ∈ problems, p.precludesStaticAnalysis = true) :
    ∃ res,
      classifyResources opts optPaths (haveBlockingSourceCodeProblems problems) tags rs
        = some res
      ∧ res.orphanedResources = []
      ∧ (opts.checkForOrphanedStrings = true →
          orphanReport opts (haveBlockingSourceCodeProblems problems) res.orphanedResources
            = OrphanReport.cannotAnalyze) := by
  have hne := haveBlockingSourceCodeProblems_ne_zero problems hfatal
  obtain ⟨res, hres, horph⟩ :=
    classify_foldl_fatal opts optPaths (haveBlockingSourceCodeProblems problems) tags hne rs
      ⟨[], [], []⟩
  refine ⟨res, hres, horph, fun hc => ?_⟩
  simp [orphanReport, horph, hne, hc]

def c1Problem : Problem :=
  { description := "Non-literal of type `Identifier` at src/App.tsx:3",
    precludesStaticAnalysis := true }

def c1Resource : Resource :=
  { key := "bar", definitions := [("en", "res/en.json:4")] }

theorem c1_witness :
    ∃ res,
      classifyResources ⟨true, true⟩ [] (haveBlockingSourceCodeProblems [c1Problem])
        ["en"] [c1Resource] = some res
      ∧ res.orphanedResources = []
      ∧ ((⟨true, true⟩ : RunOptions).checkForOrphanedStrings = true →
          orphanReport ⟨true, true⟩ (haveBlockingSourceCodeProblems [c1Problem])
            res.orphanedResources = OrphanReport.cannotAnalyze) :=
  c1_fatal_problem_suppresses_orphan_detection ⟨true, true⟩ [] [c1Problem] ["en"]
    [c1Resource] ⟨c1Problem, by simp, rfl⟩

/-- A resource whose first-inserted definition lies under a non-optional path
while a later definition lies under the optional path `optdir`. -/
def c3Resource : Resource :=
  { key := "x",
    definitions := [("en", "main/x.json:1"), ("ko", "optdir/x.json:1")],
    references := [],
    translations := [("en", "X"), ("ko", "엑스")],
    isIgnored := false }

/-- C3 counterexample: `c3Resource` has a definition location starting with
the optional path "optdir" (the "any definition location" criterion of the
claim holds), it has zero references and is not ignored, there is no fatal
problem and orphan checking is on — yet the engine reports it orphaned,
because the code consults only the first-inserted definition location
(`resource.definitions.values().next().value`). -/
theorem c3_any_definition_counterexample :
    c3Resource.definitions.any (fun d => strStartsWith d.2 "optdir") = true
    ∧ c3Resource.references = []
    ∧ c3Resource.isIgnored = false
    ∧ classifyResources ⟨true, false⟩ ["optdir"] 0 ["en", "ko"] [c3Resource]
        = some ⟨[c3Resource], [c3Resource], []⟩ := by
  refine ⟨by decide, rfl, rfl, by decide⟩

theorem classifyStep_orphaned_shape (opts : RunOptions) (optPaths : List String)
    (fatalCount : Nat) (tags : List String) (acc : ClassifyResult) (x : Resource)
    (acc' : ClassifyResult)
    (hstep : classifyStep opts optPaths fatalCount tags acc x = some acc') :
    acc'.orphanedResources = acc.orphanedResources
    ∨ (acc'.orphanedResources = acc.orphanedResources ++ [x]
       ∧ isInOptionalResourcePath optPaths x = some false) := by
  cases hcond : (opts.checkForOrphanedStrings && fatalCount == 0 && !x.isIgnored
      && x.references.isEmpty) with
  | false =>
    left
    simp only [classifyStep, hcond, Bool.false_eq_true, if_false, Option.bind_eq_bind,
      Option.some_bind] at hstep
    cases hstep
    repeat' split
    all_goals rfl
  | true =>
    match hin : isInOptionalResourcePath optPaths x with
    | none => simp [classifyStep, hcond, hin] at hstep
    | some true =>
      left
      simp only [classifyStep, hcond, if_true, hin, Option.bind_eq_bind,
        Option.some_bind, Bool.not_true, Bool.false_eq_true, if_false] at hstep
      cases hstep
      repeat' split
      all_goals rfl
    | some false =>
      right
      simp only [classifyStep, hcond, if_true, hin, Option.bind_eq_bind,
        Option.some_bind, Bool.not_false, if_true] at hstep
      cases hstep
      refine ⟨?_, rfl⟩
      repeat' split
      all_goals rfl

theorem classifyStep_preserves_notin (opts : RunOptions) (optPaths : List String)
    (fatalCount : Nat) (tags : List String) (r x : Resource)
    (lang loc : String)
    (hhead : r.definitions.head? = some (lang, loc))
    (hopt : optPaths.any (fun path => strStartsWith loc path) = true)
    (acc acc' : ClassifyResult)
    (hstep : classifyStep opts optPaths fatalCount tags acc x = some acc')
    (hnot : r ∉ acc.orphanedResources) : r ∉ acc'.orphanedResources := by
  have hne : optPaths ≠ [] := by
    intro he
    rw [he] at hopt
    simp at hopt
  rcases classifyStep_orphaned_shape opts optPaths fatalCount tags acc x acc' hstep with
    h | ⟨h, hin⟩
  · rw [h]
    exact hnot
  · by_cases hx : x = r
    · subst hx
      have htrue : isInOptionalResourcePath optPaths x = some true := by
        cases optPaths with
        | nil => exact absurd rfl hne
        | cons q qs =>
          simp only [isInOptionalResourcePath, hhead]
          rw [hopt]
      rw [htrue] at hin
      simp at hin
    · rw [h]
      intro hmem
      rcases List.mem_append.mp hmem with hc | hc
      · exact hnot hc
      · rw [List.mem_singleton] at hc
        exact hx hc.symm

/-- C3 amended: a resource with zero references and `isIgnored = false` is
exempt from orphan reporting when its FIRST-INSERTED definition location
(`definitions.values().next().value`) starts with one of the configured
optional resource paths; such a resource never appears in the orphaned
list. (The claim's "any of its definition locations" criterion is refuted by
`c3_any_definition_counterexample`.) -/
theorem c3_amended_optional_path_uses_first_definition
    (opts : RunOptions) (optPaths : List String) (fatalCount : Nat)
    (tags : List String) (rs : List Resource) (res : ClassifyResult)
    (r : Resource) (lang loc : String)
    (hhead : r.definitions.head? = some (lang, loc))
    (hopt : optPaths.any (fun path => strStartsWith loc path) = true)
    (hres : classifyResources opts optPaths fatalCount tags rs = some res) :
    r ∉ res.orphanedResources := by
  suffices h : ∀ (l : List Resource) (acc : ClassifyResult) (out : ClassifyResult),
      l.foldlM (classifyStep opts optPaths fatalCount tags) acc = some out →
      r ∉ acc.orphanedResources → r ∉ out.orphanedResources by
    exact h rs ⟨[], [], []⟩ res hres (by simp)
  intro l
  induction l with
  | nil =>
    intro acc out hout hnot
    simp only [List.foldlM] at hout
    cases hout
    exact hnot
  | cons x rest ih =>
    intro acc out hout hnot
    simp only [List.foldlM] at hout
    match hstep : classifyStep opts optPaths fatalCount tags acc x with
    | none => rw [hstep] at hout; simp at hout
    | some acc' =>
      rw [hstep] at hout
      simp only [Option.bind_eq_bind, Option.some_bind] at hout
      exact ih acc' out hout
        (classifyStep_preserves_notin opts optPaths fatalCount tags r x lang loc
          hhead hopt acc acc' hstep hnot)

def c3OptResource : Resource :=
  { key := "opt.x", definitions := [("en", "optional/strings.json:5")] }

theorem c3_witness :
    c3OptResource ∉ (ClassifyResult.mk [c3OptResource] [] []).orphanedResources :=
  c3_amended_optional_path_uses_first_definition ⟨true, false⟩ ["optional"] 0 ["en"]
    [c3OptResource] ⟨[c3OptResource], [], []⟩ c3OptResource "en" "optional/strings.json:5"
    rfl (by decide) (by decide)

theorem foldl_append_filter {α : Type} (p : α → Bool) (l : List α) :
    ∀ init : List α,
      l.foldl (fun acc x => if p x then acc ++ [x] else acc) init = init ++ l.filter p := by
  induction l with
  | nil =>
    intro init
    simp
  | cons x rest ih =>
    intro init
    cases h : p x with
    | true => simp [h, ih, List.filter_cons]
    | false => simp [h, ih, List.filter_cons]

theorem missingLanguageTags_eq_filter (tags : List String) (r : Resource) :
    missingLanguageTags tags r = tags.filter (fun tag => !(mapHas r.translations tag)) := by
  simpa [missingLanguageTags] using
    foldl_append_filter (fun tag => !(mapHas r.translations tag)) tags []

/-- A key translated into `en` and `ko` but not `fr`. -/
def c8Resource : Resource :=
  { key := "foo",
    definitions := [("en", "res/en.json:2"), ("ko", "res/ko.json:2")],
    references := ["src/App.tsx:9"],
    translations := [("en", "Foo"), ("ko", "푸")],
    isIgnored := false }

/-- C8: a Resource is reported untranslated iff untranslated checking is
enabled and `0 < translations.size < (count of distinct language tags seen
across all parsed resource files)`, and the reported missing-language list is
exactly the seen tags for which the Resource has no translation. The second
conjunct is the concrete instance of the claim: 3 distinct parsed tags,
translations in only 2 of them, exactly the one absent tag listed. -/
theorem c8_untranslated_characterization :
    (∀ (opts : RunOptions) (fatalCount : Nat) (tags : List String) (r : Resource),
      (classifyResources opts [] fatalCount tags [r]).map ClassifyResult.untranslatedResources
        = some (if opts.checkForUntranslatedStrings
                  && r.translations.length != 0
                  && r.translations.length < tags.length then
                  [(tags.filter (fun tag => !(mapHas r.translations tag)), r)]
                else []))
    ∧ (classifyResources ⟨false, true⟩ [] 0 ["en", "ko", "fr"] [c8Resource]).map
        ClassifyResult.untranslatedResources = some [(["fr"], c8Resource)] := by
  constructor
  · intro opts fatalCount tags r
    simp only [classifyResources, List.foldlM, classifyStep, isInOptionalResourcePath,
      Option.bind_eq_bind, Option.some_bind, missingLanguageTags_eq_filter]
    cases hu : opts.checkForUntranslatedStrings <;>
      cases hc : (opts.checkForOrphanedStrings && fatalCount == 0 && !r.isIgnored
        && r.references.isEmpty) <;>
        cases hs : (r.translations.length != 0 && decide (r.translations.length < tags.length)) <;>
          cases hd : (r.definitions.length != 0) <;>
            simp_all
  · decide

/-- The ignore-directive word, `utils/misc.ts` `IGNORE_DIRECTIVE`. -/
def IGNORE_DIRECTIVE : String := "i18nspector-ignore"

inductive IgnoreMarker where
  | ignore
  | ignoreBegin
  | ignoreEnd
deriving Repr, DecidableEq

/-- JavaScript regex `\s` on the characters appearing in resource files. -/
def isJsWhitespace (c : Char) : Bool :=
  c == ' ' || c == '\t' || c == '\n' || c == '\r'

/-- Strip `word` from the front of `cs`, if present. -/
def dropPrefixChars : List Char → List Char → Option (List Char)
  | cs, [] => some cs
  | [], _ :: _ => none
  | c :: cs, w :: ws => if c == w then dropPrefixChars cs ws else none

/-- Modelled from the spec: `IGNORE_DIRECTIVE_PATTERN` is defined in the
revision of `utils/resources.ts` that is not under `src/`; only its uses are.
Per the spec the grammar is the whole words `i18nspector-ignore`,
`i18nspector-ignore-begin`, `i18nspector-ignore-end`, embedded as
`i18nspector-ignore(-(marker : begin|end))?` followed by a closing boundary:
`(\*|\s|$)` inside JSONC comments (`allowStar = true`), `(\s|$)` on
properties lines. This matches the directive starting at `cs`, with regex
backtracking (a failed optional `-begin`/`-end` falls back to the bare
directive). -/
def ignoreMarkerAt (allowStar : Bool) (cs : List Char) : Option IgnoreMarker :=
  let boundary : List Char → Bool := fun r =>
    match r with
    | [] => true
    | c :: _ => isJsWhitespace c || (allowStar && c == '*')
  match dropPrefixChars cs IGNORE_DIRECTIVE.data with
  | none => none
  | some rest =>
    match dropPrefixChars rest "-begin".data with
    | some r2 =>
      if boundary r2 then some .ignoreBegin
      else if boundary rest then some .ignore else none
    | none =>
      match dropPrefixChars rest "-end".data with
      | some r2 =>
        if boundary r2 then some .ignoreEnd
        else if boundary rest then some .ignore else none
      | none => if boundary rest then some .ignore else none

/-- The regex search `[*/]\s*PATTERN(\*|\s|$)` of `parsers/jsonc.ts`
`onComment`: the leftmost comment delimiter character followed by optional
whitespace and the directive. -/
def scanJsoncComment : List Char → Option IgnoreMarker
  | [] => none
  | c :: rest =>
    if c == '/' || c == '*' then
      match ignoreMarkerAt true (rest.dropWhile isJsWhitespace) with
      | some marker => some marker
      | none => scanJsoncComment rest
    else scanJsoncComment rest

def jsoncCommentDirective (text : String) : Option IgnoreMarker :=
  scanJsoncComment text.data

/-- The anchored regex `^[!#]\s*PATTERN(\s|$)` of `parsers/properties.ts`. -/
def propertiesLineDirective (line : String) : Option IgnoreMarker :=
  match line.data with
  | [] => none
  | c :: rest =>
    if c == '!' || c == '#' then ignoreMarkerAt false (rest.dropWhile isJsWhitespace)
    else none

/-- The i18next plural-category suffixes that also occur in ordinal form. -/
def pluralCategorySuffixes : List String := ["few", "many", "one", "other", "two", "zero"]

/-- Modelled from the spec: the suffix family matched by
`RESOURCE_KEY_REGEXP`, which is defined in the revision of
`utils/resources.ts` that is not under `src/`. Per the spec these are
`_one`, `_other`, `_few`, `_many`, `_two`, `_zero`, `_interval`, `_plural`
and the `_ordinal_<suffix>` family. -/
def pluralSuffixFamily : List String :=
  pluralCategorySuffixes.map (fun s => "ordinal_" ++ s)
    ++ ["few", "interval", "many", "one", "other", "plural", "two", "zero"]

/-- Modelled from the spec: `RESOURCE_KEY_REGEXP.exec(key)?.groups?.baseKey` —
`some base` when the key ends in `_<suffix>` for a family suffix and the
remaining base key is nonempty (the regex base is `.+`); only the final
suffix is stripped. -/
def pluralBaseKey (key : String) : Option String :=
  (pluralSuffixFamily.find? (fun s =>
      strEndsWith key ("_" ++ s) && decide (s.data.length + 1 < key.data.length))).map
    (fun s => ⟨key.data.take (key.data.length - (s.data.length + 1))⟩)

/-- One segment of a `jsonc-parser` JSON path: an object property name or an
array index. -/
inductive JPath where
  | field (name : String)
  | index (i : Nat)
deriving Repr, DecidableEq

/-- JavaScript `Array.prototype.join` stringification of a path segment. -/
def JPath.segmentString : JPath → String
  | .field name => name
  | .index i => toString i

/-- JavaScript `Array.prototype.join('.')`. -/
def joinDotted : List String → String
  | [] => ""
  | s :: rest => rest.foldl (fun acc seg => acc ++ "." ++ seg) s

/-- `parsers/jsonc.ts` `onLiteralValue`: if the last path segment is a string
matching the plural-suffix regex, splice in its base key. -/
def collapsedPath (path : List JPath) : List JPath :=
  match path.getLast? with
  | some (.field s) =>
    match pluralBaseKey s with
    | some base => path.dropLast ++ [.field base]
    | none => path
  | _ => path

/-- The `jsonc-parser` visitor events that `parsers/jsonc.ts` subscribes to,
carrying exactly the callback arguments the code reads. The library itself is
an external dependency; the embedded state machine below is the visitor
object of `parsers/jsonc.ts`. -/
inductive JsoncEvent where
  | comment (text : String) (startLine : Nat)
  | literalValue (value : String) (path : List JPath) (startLine : Nat)
  | objectBegin (startLine : Nat)
  | objectEnd
deriving Repr, DecidableEq

/-- The mutable locals of `parsers/jsonc.ts` `parse`. `none` models
`Infinity` for `ignoreDepth` and `-1` for the two line-number fields.
`resourceKeys` records the keys of the `resources` array pushed so far (the
code reads only its last element, whose Resource object it fetches from the
shared map, which object identity makes the same entity). -/
structure JsoncState where
  depth : Nat
  ignoreDepth : Option Nat
  ignoreLineNumber : Option Nat
  ignoreUntilEndDirective : Bool
  objectStartLineNumber : Option Nat
  resourceKeys : List String
  resources : RMap
deriving Repr, DecidableEq

/-- JavaScript `depth >= ignoreDepth` (false against `Infinity`). -/
def JsoncState.withinIgnoredObject (st : JsoncState) : Bool :=
  match st.ignoreDepth with
  | none => false
  | some d => decide (d ≤ st.depth)

/-- One visitor callback of `parsers/jsonc.ts`. `objectEnd` decrements
`depth`; the `jsonc-parser` library only emits balanced begin/end pairs, so
the `Nat` subtraction never truncates on reachable event streams. -/
def jsoncStep (filePath languageTag : String) (st : JsoncState) :
    JsoncEvent → JsoncState
  | .comment text startLine =>
    if st.withinIgnoredObject then st
    else
      match jsoncCommentDirective text with
      | some .ignoreBegin => { st with ignoreUntilEndDirective := true }
      | some .ignoreEnd => { st with ignoreUntilEndDirective := false }
      | some .ignore =>
        let st := { st with ignoreLineNumber := some startLine }
        if st.objectStartLineNumber == some startLine then
          { st with ignoreDepth := some st.depth }
        else
          match st.resourceKeys.getLast? with
          | none => st
          | some key =>
            match mapGet st.resources key with
            | none => st
            | some r =>
              match mapGet r.definitions languageTag with
              | none => st
              | some defLocation =>
                if strEndsWith defLocation (":" ++ toString (startLine + 1)) then
                  { st with resources :=
                      mapSet st.resources key { r with isIgnored := true } }
                else st
      | none => st
  | .literalValue value path startLine =>
    let resourceKey := joinDotted ((collapsedPath path).map JPath.segmentString)
    let location := filePath ++ ":" ++ toString (startLine + 1)
    let r := match mapGet st.resources resourceKey with
      | some r => r
      | none => newResource resourceKey
    let r := { r with definitions := mapSet r.definitions languageTag location }
    let ignored := r.isIgnored || st.withinIgnoredObject
      || st.ignoreLineNumber == some startLine || st.ignoreUntilEndDirective
    let r := { r with isIgnored := ignored }
    let r := { r with translations := mapSet r.translations languageTag value }
    { st with resources := mapSet st.resources resourceKey r,
              resourceKeys := st.resourceKeys ++ [resourceKey] }
  | .objectBegin startLine =>
    let st := { st with depth := st.depth + 1, objectStartLineNumber := some startLine }
    if st.ignoreLineNumber == some startLine then { st with ignoreDepth := some st.depth }
    else st
  | .objectEnd =>
    let st := { st with depth := st.depth - 1 }
    match st.ignoreDepth with
    | none => st
    | some d => if st.depth < d then { st with ignoreDepth := none } else st

def initJsoncState (resources : RMap) : JsoncState :=
  { depth := 0, ignoreDepth := none, ignoreLineNumber := none,
    ignoreUntilEndDirective := false, objectStartLineNumber := none,
    resourceKeys := [], resources := resources }

/-- `parsers/jsonc.ts` `parse`: run the visitor over the event stream of one
resource file, mutating the shared map. (The returned per-file resource array
is used only for verbose counts and is not modelled.) -/
def parseJsonc (filePath languageTag : String) (events : List JsoncEvent)
    (resources : RMap) : RMap :=
  (events.foldl (jsoncStep filePath languageTag) (initJsoncState resources)).resources

/-- One element of the `properties-file` library's `collection`: a parsed
key/value pair with its 1-based starting line number. -/
structure PropEntry where
  key : String
  value : String
  startingLineNumber : Nat
deriving Repr, DecidableEq

/-- The fields of the `properties-file` library's `Properties` object that
`parsers/properties.ts` reads: the raw `lines`, the parsed keys' 1-based
`keyLineNumbers`, and the parsed `collection`. The library is an external
dependency; the logic below is the parser source. -/
structure PropertiesFile where
  lines : List String
  keyLineNumbers : List (String × List Nat)
  collection : List PropEntry
deriving Repr, DecidableEq

/-- The `properties.lines.forEach((line, index) => ...)` body of
`parsers/properties.ts` building `ignoredLineRanges`; `none` as a range end
models `Number.POSITIVE_INFINITY`. -/
def propertiesRangesStep (keyLineNumbers : List (String × List Nat))
    (ranges : List (Nat × Option Nat)) (entry : Nat × String) :
    List (Nat × Option Nat) :=
  let (index, line) := entry
  if keyLineNumbers.any (fun kl => kl.2.any (fun n => n == index + 1)) then ranges
  else
    match propertiesLineDirective line with
    | some .ignoreBegin => ranges ++ [(index + 2, none)]
    | some .ignoreEnd =>
      match ranges.getLast? with
      | some (beginning, none) => ranges.dropLast ++ [(beginning, some index)]
      | _ => ranges
    | _ => ranges

def ignoredLineRangesOf (pf : PropertiesFile) : List (Nat × Option Nat) :=
  pf.lines.enum.foldl (propertiesRangesStep pf.keyLineNumbers) []

/-- `ignoredLineRanges.some(([beginning, end]) => startingLineNumber >=
beginning && startingLineNumber <= end)`. -/
def lineInRanges (ranges : List (Nat × Option Nat)) (line : Nat) : Bool :=
  ranges.any (fun range => decide (range.1 ≤ line) &&
    (match range.2 with
     | none => true
     | some e => decide (line ≤ e)))

/-- The `properties.collection.forEach(...)` body of
`parsers/properties.ts`. Note that `isIgnored` is assigned, not OR-ed. -/
def propertiesCollectionStep (filePath languageTag : String)
    (ranges : List (Nat × Option Nat)) (m : RMap) (entry : PropEntry) : RMap :=
  let key := (pluralBaseKey entry.key).getD entry.key
  let r := match mapGet m key with
    | some r => r
    | none => newResource key
  let location := filePath ++ ":" ++ toString entry.startingLineNumber
  let r := { r with definitions := mapSet r.definitions languageTag location }
  let r := { r with isIgnored := lineInRanges ranges entry.startingLineNumber }
  let r := { r with translations := mapSet r.translations languageTag entry.value }
  mapSet m key r

/-- `parsers/properties.ts` `parse` over one resource file. (The returned
per-file resource array is used only for counts and is not modelled.) -/
def parseProperties (filePath languageTag : String) (pf : PropertiesFile)
    (m : RMap) : RMap :=
  pf.collection.foldl
    (propertiesCollectionStep filePath languageTag (ignoredLineRangesOf pf)) m

/-- A properties file whose `greeting` definition sits inside an
`ignore-begin`/`ignore-end` block. -/
def c2PropertiesFirst : PropertiesFile :=
  { lines := ["# i18nspector-ignore-begin", "greeting=Hello", "# i18nspector-ignore-end"],
    keyLineNumbers := [("greeting", [2])],
    collection := [⟨"greeting", "Hello", 2⟩] }

/-- A later properties file defining the same key with no directive. -/
def c2PropertiesSecond : PropertiesFile :=
  { lines := ["greeting=Hi"],
    keyLineNumbers := [("greeting", [1])],
    collection := [⟨"greeting", "Hi", 1⟩] }

/-- C2 counterexample: the first properties parse marks `greeting` ignored,
but a subsequent properties parse of a later definition of the same key
without a directive resets `isIgnored` to `false` — the properties parser
assigns `isIgnored` from its own ignored-line ranges instead of OR-ing it,
so the flag is not sticky across parsers as claimed. -/
theorem c2_properties_reset_counterexample :
    ((mapGet (parseProperties "res/en.properties" "en" c2PropertiesFirst []) "greeting").map
        Resource.isIgnored = some true)
    ∧ ((mapGet (parseProperties "res/ko.properties" "ko" c2PropertiesSecond
          (parseProperties "res/en.properties" "en" c2PropertiesFirst [])) "greeting").map
        Resource.isIgnored = some false) := by
  exact ⟨rfl, rfl⟩

theorem mapGet_mapSet_ignored_preserves (m : RMap) (key k : String) (v : Resource)
    (hv : v.isIgnored = true) (r : Resource) (h : mapGet m k = some r)
    (hig : r.isIgnored = true) :
    ∃ r', mapGet (mapSet m key v) k = some r' ∧ r'.isIgnored = true := by
  by_cases hk : k = key
  · subst hk
    exact ⟨v, mapGet_mapSet_self _ _ _, hv⟩
  · rw [mapGet_mapSet_other _ _ _ _ hk]
    exact ⟨r, h, hig⟩

theorem jsoncStep_sticky (filePath languageTag : String) (ev : JsoncEvent)
    (st : JsoncState) (k : String) (r : Resource)
    (h : mapGet st.resources k = some r) (hig : r.isIgnored = true) :
    ∃ r', mapGet (jsoncStep filePath languageTag st ev).resources k = some r'
      ∧ r'.isIgnored = true := by
  cases ev with
  | objectBegin startLine =>
    refine ⟨r, ?_, hig⟩
    simp only [jsoncStep]
    split <;> exact h
  | objectEnd =>
    refine ⟨r, ?_, hig⟩
    simp only [jsoncStep]
    split
    · exact h
    · split <;> exact h
  | comment text startLine =>
    simp only [jsoncStep]
    split
    · exact ⟨r, h, hig⟩
    · split
      · exact ⟨r, h, hig⟩
      · exact ⟨r, h, hig⟩
      · split
        · exact ⟨r, h, hig⟩
        · split
          · exact ⟨r, h, hig⟩
          · split
            · exact ⟨r, h, hig⟩
            · split
              · exact ⟨r, h, hig⟩
              · split
                · exact mapGet_mapSet_ignored_preserves _ _ _ _ rfl r h hig
                · exact ⟨r, h, hig⟩
      · exact ⟨r, h, hig⟩
  | literalValue value path startLine =>
    simp only [jsoncStep]
    by_cases hk : k = joinDotted ((collapsedPath path).map JPath.segmentString)
    · subst hk
      rw [h]
      refine ⟨_, mapGet_mapSet_self _ _ _, ?_⟩
      simp [hig]
    · rw [mapGet_mapSet_other _ _ _ _ hk]
      exact ⟨r, h, hig⟩

/-- C2 amended: `isIgnored` is sticky under the JSONC parser — once a
Resource in the shared map has `isIgnored = true`, parsing any further JSONC
event stream (any language, any file) leaves a resource at that key with
`isIgnored = true`; later definitions without a directive never reset it.
The properties parser does NOT preserve it: it overwrites `isIgnored` on
every definition (see `c2_properties_reset_counterexample`). -/
theorem c2_amended_jsonc_sticky (filePath languageTag : String)
    (events : List JsoncEvent) (resources : RMap) (k : String) (r : Resource)
    (h : mapGet resources k = some r) (hig : r.isIgnored = true) :
    ∃ r', mapGet (parseJsonc filePath languageTag events resources) k = some r'
      ∧ r'.isIgnored = true := by
  suffices hs : ∀ (evs : List JsoncEvent) (st : JsoncState),
      (∃ r0, mapGet st.resources k = some r0 ∧ r0.isIgnored = true) →
      ∃ r', mapGet (evs.foldl (jsoncStep filePath languageTag) st).resources k = some r'
        ∧ r'.isIgnored = true by
    exact hs events (initJsoncState resources) ⟨r, h, hig⟩
  intro evs
  induction evs with
  | nil =>
    intro st hst
    exact hst
  | cons ev rest ih =>
    intro st hst
    obtain ⟨r0, h0, hig0⟩ := hst
    exact ih _ (jsoncStep_sticky filePath languageTag ev st k r0 h0 hig0)

def c2IgnoredResource : Resource := { key := "greeting", isIgnored := true }

theorem c2_witness :
    ∃ r', mapGet (parseJsonc "res/ko.json" "ko"
        [.objectBegin 0, .literalValue "Hi" [.field "greeting"] 1, .objectEnd]
        [("greeting", c2IgnoredResource)]) "greeting" = some r'
      ∧ r'.isIgnored = true :=
  c2_amended_jsonc_sticky "res/ko.json" "ko"
    [.objectBegin 0, .literalValue "Hi" [.field "greeting"] 1, .objectEnd]
    [("greeting", c2IgnoredResource)] "greeting" c2IgnoredResource rfl rfl

/-- C7: a parsed resource definition whose last key segment carries a plural
suffix (the `_one`, `_other`, `_few`, `_many`, `_two`, `_zero`, `_interval`,
`_plural`, `_ordinal_<suffix>` family) is collapsed onto its base key before
lookup/creation: every family suffix on base `greeting` yields base key
`greeting` (and a suffix-free key is left alone), and parsing
`greeting_one` and `greeting_other` — in different languages or in the same
one — produces a single shared Resource with key `greeting`. -/
theorem c7_plural_suffix_collapse :
    pluralSuffixFamily.all
      (fun s => pluralBaseKey ("greeting_" ++ s) == some "greeting") = true
    ∧ pluralBaseKey "greeting" = none
    ∧ (parseJsonc "res/ko.json" "ko"
        [.objectBegin 0, .literalValue "annyeong" [.field "greeting_other"] 1, .objectEnd]
        (parseJsonc "res/en.json" "en"
          [.objectBegin 0, .literalValue "Hello" [.field "greeting_one"] 1, .objectEnd]
          [])).map Prod.fst = ["greeting"]
    ∧ (mapGet (parseJsonc "res/ko.json" "ko"
        [.objectBegin 0, .literalValue "annyeong" [.field "greeting_other"] 1, .objectEnd]
        (parseJsonc "res/en.json" "en"
          [.objectBegin 0, .literalValue "Hello" [.field "greeting_one"] 1, .objectEnd]
          [])) "greeting").map (fun r => r.definitions.map Prod.fst)
        = some ["en", "ko"]
    ∧ (parseJsonc "res/en.json" "en"
        [.objectBegin 0, .literalValue "Hello" [.field "greeting_one"] 1,
         .literalValue "Howdy" [.field "greeting_other"] 2, .objectEnd]
        []).map Prod.fst = ["greeting"] := by
  exact ⟨by decide, rfl, rfl, rfl, rfl⟩

/-- Location and attached-comment data of one AST node: recast exposes
`loc.start.index`, `loc.start.line`, `comments` and `trailingComments`. -/
structure NodeMeta where
  startIndex : Nat
  line : Nat
  comments : List String := []
  trailingComments : List String := []
deriving Repr, DecidableEq

/-- One `TemplateElement` (quasi): its raw text and source index. -/
structure Quasi where
  raw : String
  startIndex : Nat
deriving Repr, DecidableEq

/-- The callee shapes `visitCallExpression` distinguishes: a bare
identifier, a member access whose property is an identifier, or anything
else. -/
inductive Callee where
  | identCallee (name : String)
  | memberCallee (propertyName : String)
  | otherCallee (kind : String)
deriving Repr, DecidableEq

/-- The syntax-node shapes `utils/source-code.ts` dispatches on. `wrapper`
stands for every other node kind (identifiers, statements, declarations,
the program root...), carrying its `type` string and its children. -/
inductive SNode where
  | stringLiteral (value : String) (meta : NodeMeta)
  | conditional (test consequent alternate : SNode) (meta : NodeMeta)
  | template (quasis : List Quasi) (expressions : List SNode) (meta : NodeMeta)
  | call (callee : Callee) (args : List SNode) (meta : NodeMeta)
  | objectExpression (propertyNames : List String) (meta : NodeMeta)
  | wrapper (kind : String) (children : List SNode) (meta : NodeMeta)
deriving Repr

def SNode.meta : SNode → NodeMeta
  | .stringLiteral _ m => m
  | .conditional _ _ _ m => m
  | .template _ _ m => m
  | .call _ _ m => m
  | .objectExpression _ m => m
  | .wrapper _ _ m => m

def SNode.line (n : SNode) : Nat := n.meta.line

/-- The `node.type` string read by the "Non-literal of type ..." problem. -/
def SNode.typeName : SNode → String
  | .stringLiteral _ _ => "StringLiteral"
  | .conditional _ _ _ _ => "ConditionalExpression"
  | .template _ _ _ => "TemplateLiteral"
  | .call _ _ _ => "CallExpression"
  | .objectExpression _ _ => "ObjectExpression"
  | .wrapper kind _ _ => kind

/-- JavaScript `String.prototype.trim`, structurally. -/
def strTrim (s : String) : String :=
  ⟨((s.data.dropWhile isJsWhitespace).reverse.dropWhile isJsWhitespace).reverse⟩

/-- `isIgnoreDirective` of `utils/source-code.ts`: the comment's trimmed
value equals the bare directive. -/
def isIgnoreDirectiveComment (comment : String) : Bool :=
  strTrim comment == IGNORE_DIRECTIVE

/-- `hasIgnoreDirective` of `utils/source-code.ts` `isIgnored`. -/
def hasIgnoreDirective (n : SNode) : Bool :=
  n.meta.comments.any isIgnoreDirectiveComment
    || n.meta.trailingComments.any isIgnoreDirectiveComment

/-- The first-argument check of `isIgnored`: only a call expression with a
first argument carrying the directive. -/
def firstArgumentHasIgnoreDirective : SNode → Bool
  | .call _ args _ =>
    match args.head? with
    | some a => hasIgnoreDirective a
    | none => false
  | _ => false

/-- `isIgnored(nodePath)` of `utils/source-code.ts`: the first argument (for
a call), the node itself, then recursively every ancestor node path. -/
def isIgnoredNodePath : SNode → List SNode → Bool
  | n, [] => firstArgumentHasIgnoreDirective n || hasIgnoreDirective n
  | n, parent :: rest =>
    firstArgumentHasIgnoreDirective n || hasIgnoreDirective n
      || isIgnoredNodePath parent rest

/-- A resolved string literal: its value and its `loc.start` index and line. -/
structure SLit where
  value : String
  startIndex : Nat
  line : Nat
deriving Repr, DecidableEq

/-- The `{nonLiteralExpressions, stringLiterals}` pair `processNode`
returns. -/
structure ResolveResult where
  nonLiteralExpressions : List SNode
  stringLiterals : List SLit

mutual

/-- The recursion of `utils/misc.ts` `permutate`, reformulated over the
suffix `entries.drop precursors.length` of the entries array: the JS code
reads `entries[precursors.length]`, which is the suffix's head, and its
`precursors.length == entries.length - 1` test holds exactly when the
suffix is a singleton; the recursive call extends `precursors` by one, i.e.
drops the suffix head. `none` models the `TypeError` thrown when
`entries[precursors.length]` is `undefined` — since the recursion only
descends while at least two suffix entries remain, that happens exactly on
a top-level call with an empty entries array. -/
def permGo {α : Type} : List (List α) → List α → Option (List (List α))
  | [], _ => none
  | [values], precursors => some (values.map (fun v => precursors ++ [v]))
  | values :: next :: more, precursors => permGoValues values (next :: more) precursors
termination_by entries _ => 2 * sizeOf entries

/-- The `for (const value of entries[precursors.length])` loop of
`permutate` in the non-final-entry case, concatenating the recursive
permutations in value order. -/
def permGoValues {α : Type} : List α → List (List α) → List α → Option (List (List α))
  | [], _, _ => some []
  | v :: vs, entries, precursors => do
    let sub ← permGo entries (precursors ++ [v])
    let rest ← permGoValues vs entries precursors
    pure (sub ++ rest)
termination_by vs entries _ => 2 * sizeOf entries + 1 + 2 * sizeOf vs

end

/-- `utils/misc.ts` `permutate(entries)` — the top-level call with
`precursors = []`. -/
def permutate {α : Type} (entries : List (List α)) : Option (List (List α)) :=
  permGo entries []

/-- The ordinary Cartesian product of a list of option lists, in option
order: one combination per choice of one value from each entry (the spec's
"all statically enumerable renderings"). -/
def cartesianProduct {α : Type} : List (List α) → List (List α)
  | [] => [[]]
  | values :: rest =>
    let sub := cartesianProduct rest
    values.flatMap (fun v => sub.map (fun t => v :: t))

/-- One element of the merge performed by the TemplateLiteral case: either a
resolved string literal from a permutation or one of the template's quasis. -/
inductive MergePiece where
  | literalPiece (lit : SLit)
  | quasiPiece (q : Quasi)
deriving Repr, DecidableEq

def MergePiece.startIndex : MergePiece → Nat
  | .literalPiece lit => lit.startIndex
  | .quasiPiece q => q.startIndex

/-- `typeof node.value == 'string' ? node.value : node.value.raw`. -/
def MergePiece.text : MergePiece → String
  | .literalPiece lit => lit.value
  | .quasiPiece q => q.raw

/-- Stable insertion: an element goes after every element with a key less
than or equal to its own, preserving the relative order of equal keys —
JavaScript `Array.prototype.sort` is stable. -/
def insertByStartIndex (x : MergePiece) : List MergePiece → List MergePiece
  | [] => [x]
  | y :: ys =>
    if y.startIndex ≤ x.startIndex then y :: insertByStartIndex x ys
    else x :: y :: ys

def sortByStartIndex (pieces : List MergePiece) : List MergePiece :=
  pieces.foldl (fun acc x => insertByStartIndex x acc) []

/-- The `.sort(...)` and `.reduce(...)` of the TemplateLiteral case of
`processNode`: interleave one permutation's literals with the template's
quasis by `loc.start.index` and concatenate their texts into one
synthesized string literal whose `loc` is the template's. -/
def mergeTemplateCombo (quasis : List Quasi) (m : NodeMeta) (combo : List SLit) : SLit :=
  let pieces := combo.map MergePiece.literalPiece ++ quasis.map MergePiece.quasiPiece
  (sortByStartIndex pieces).foldl
    (fun acc piece => { acc with value := acc.value ++ piece.text })
    ⟨"", m.startIndex, m.line⟩

mutual

/-- `processNode` of `utils/source-code.ts`: resolve a `t(...)` first
argument into its statically enumerable string literals and its non-literal
sub-expressions. The ConditionalExpression case processes the alternate
before the consequent (as the code does) and never looks at the test;
everything but the three handled kinds falls through to "one non-literal
expression". `none` models the `TypeError` propagated out of `permutate`. -/
def processNode : SNode → Option ResolveResult
  | .conditional _ consequent alternate _ => do
    let alternateNodes ← processNode alternate
    let consequentNodes ← processNode consequent
    pure ⟨alternateNodes.nonLiteralExpressions ++ consequentNodes.nonLiteralExpressions,
          alternateNodes.stringLiterals ++ consequentNodes.stringLiterals⟩
  | .stringLiteral value m => some ⟨[], [⟨value, m.startIndex, m.line⟩]⟩
  | .template quasis expressions m => do
    let results ← processNodeList expressions
    let combos ← permutate (results.map (fun r => r.stringLiterals))
    pure ⟨results.flatMap (fun r => r.nonLiteralExpressions),
          combos.map (mergeTemplateCombo quasis m)⟩
  | n => some ⟨[n], []⟩

/-- The `templateLiteral.expressions.map(processNode)` traversal, in order. -/
def processNodeList : List SNode → Option (List ResolveResult)
  | [] => some []
  | e :: rest => do
    let r ← processNode e
    let rs ← processNodeList rest
    pure (r :: rs)

end

/-- The per-file accumulation of `parseSourceCodeFile`: the shared map, the
problems list, and the sequence of `referencedResources.add(...)` calls
(recorded by resource key; the JS `Set` is keyed by object identity). -/
structure ScanState where
  resources : RMap
  problems : List Problem
  referenced : List String
deriving Repr, DecidableEq

/-- `formatLocation` of `utils/source-code.ts`. -/
def formatLocation (filePath : String) (line : Nat) : String :=
  filePath ++ ":" ++ toString line

/-- The unknown-string branch of the `stringLiterals.forEach(...)` body: a
non-fatal problem, a fresh placeholder Resource replacing any map entry for
the key, the `referencedResources.add`, and the reference push onto the
fresh placeholder. -/
def referenceUnknownString (key location : String) (st : ScanState) : ScanState :=
  { st with
    problems := st.problems ++
      [⟨"Reference to unknown string '" ++ key ++ "' at " ++ location, false⟩],
    resources := mapSet st.resources key { key := key, references := [location] },
    referenced := st.referenced ++ [key] }

/-- The `stringLiterals.forEach(...)` body of `visitCallExpression`:
`resource?.definitions.size` decides between recording a reference on the
existing Resource and the unknown-string branch. The key is the literal's
value, with no plural-suffix collapse. -/
def processStringLiteral (filePath : String) (st : ScanState) (lit : SLit) : ScanState :=
  let key := lit.value
  let location := formatLocation filePath lit.line
  match mapGet st.resources key with
  | some r =>
    if r.definitions.length != 0 then
      { st with
        resources := mapSet st.resources key
          { r with references := r.references ++ [location] },
        referenced := st.referenced ++ [key] }
    else referenceUnknownString key location st
  | none => referenceUnknownString key location st

/-- Call-site recognition: the callee is the bare identifier `t` or a member
access whose property is the identifier `t`. -/
def isTCallee : Callee → Bool
  | .identCallee name => name == "t"
  | .memberCallee propertyName => propertyName == "t"
  | .otherCallee _ => false

/-- The body of `visitCallExpression` after the ignore check: a recognized
`t(...)` with a first argument resolves it, emits one fatal problem per
non-literal expression, then records each resolved string literal; a
`useTranslation(...)` call emits the unsupported-namespace problem when any
first argument is present and the unsupported-key-prefix problem when the
second argument is an object literal with a `keyPrefix` property. -/
def processCall (filePath : String) (callee : Callee) (args : List SNode)
    (st : ScanState) : Option ScanState :=
  if isTCallee callee && !args.isEmpty then
    match args.head? with
    | none => some st
    | some firstArgument => do
      let resolved ← processNode firstArgument
      let st := resolved.nonLiteralExpressions.foldl
        (fun st n =>
          { st with problems := st.problems ++
              [⟨"Non-literal of type `" ++ n.typeName ++ "` at "
                  ++ formatLocation filePath n.line, true⟩] })
        st
      pure (resolved.stringLiterals.foldl (processStringLiteral filePath) st)
  else
    match callee with
    | .identCallee name =>
      if name == "useTranslation" then
        let st := match args.head? with
          | some namespaceArgument =>
            { st with problems := st.problems ++
                [⟨"Unsupported namespace at "
                    ++ formatLocation filePath namespaceArgument.line, true⟩] }
          | none => st
        let st := match (args.drop 1).head? with
          | some (.objectExpression propertyNames optionsMeta) =>
            if propertyNames.any (fun p => p == "keyPrefix") then
              { st with problems := st.problems ++
                  [⟨"Unsupported key prefix at "
                      ++ formatLocation filePath optionsMeta.line, true⟩] }
            else st
          | _ => st
        some st
      else some st
    | _ => some st

mutual

/-- The ast-types `visit` traversal with the `visitCallExpression` visitor
of `utils/source-code.ts`: on a call node, `isIgnored(nodePath)` first —
`return false` skips the whole subtree — otherwise the call is processed
and `this.traverse` descends into the children; every other node kind is
traversed transparently. Children are visited in syntactic order. -/
def walkNode (filePath : String) : SNode → List SNode → ScanState → Option ScanState
  | n@(.call callee args _), ancestors, st =>
    if isIgnoredNodePath n ancestors then some st
    else do
      let st ← processCall filePath callee args st
      walkNodeList filePath args (n :: ancestors) st
  | n@(.conditional test consequent alternate _), ancestors, st => do
    let st ← walkNode filePath test (n :: ancestors) st
    let st ← walkNode filePath consequent (n :: ancestors) st
    walkNode filePath alternate (n :: ancestors) st
  | n@(.template _ expressions _), ancestors, st =>
    walkNodeList filePath expressions (n :: ancestors) st
  | n@(.wrapper _ children _), ancestors, st =>
    walkNodeList filePath children (n :: ancestors) st
  | .stringLiteral _ _, _, st => some st
  | .objectExpression _ _, _, st => some st
termination_by n _ _ => 2 * sizeOf n + 1

def walkNodeList (filePath : String) :
    List SNode → List SNode → ScanState → Option ScanState
  | [], _, st => some st
  | child :: rest, ancestors, st => do
    let st ← walkNode filePath child ancestors st
    walkNodeList filePath rest ancestors st
termination_by l _ _ => 2 * sizeOf l

end

theorem permGo_eq_cartesianProduct {α : Type} (entries : List (List α)) :
    entries ≠ [] → ∀ precursors : List α,
      permGo entries precursors
        = some ((cartesianProduct entries).map (fun t => precursors ++ t)) := by
  induction entries with
  | nil =>
    intro h
    exact absurd rfl h
  | cons values rest ih =>
    intro _ precursors
    cases rest with
    | nil =>
      simp only [permGo, cartesianProduct]
      induction values with
      | nil => simp
      | cons v vs ihv => simp_all
    | cons next more =>
      have hval : ∀ (vs : List α) (p : List α),
          permGoValues vs (next :: more) p
            = some (vs.flatMap (fun v =>
                (cartesianProduct (next :: more)).map (fun t => p ++ v :: t))) := by
        intro vs
        induction vs with
        | nil =>
          intro p
          simp [permGoValues]
        | cons v vs' ihv =>
          intro p
          rw [permGoValues, ih (by simp) (p ++ [v]), ihv p]
          simp [List.flatMap_cons, List.append_assoc]
      rw [permGo, hval values precursors]
      simp only [cartesianProduct]
      rw [List.map_flatMap]
      simp [List.map_map, Function.comp_def]

/-- The first argument of `` t(`${cond ? 'a' : 'b'}`) ``: a template literal
with two empty quasis around one interpolated ternary whose branches are the
string literals `'a'` (index 10) and `'b'` (index 14). -/
def c4Template : SNode :=
  .template [⟨"", 3⟩, ⟨"", 16⟩]
    [.conditional (.wrapper "Identifier" [] ⟨5, 1, [], []⟩)
      (.stringLiteral "a" ⟨10, 1, [], []⟩)
      (.stringLiteral "b" ⟨14, 1, [], []⟩) ⟨5, 1, [], []⟩]
    ⟨2, 1, [], []⟩

def c4Call : SNode := .call (.identCallee "t") [c4Template] ⟨0, 1, [], []⟩

/-- Resources `a` and `b`, both defined. -/
def c4State : ScanState :=
  { resources :=
      [("a", { key := "a", definitions := [("en", "res/en.json:2")],
               translations := [("en", "A")] }),
       ("b", { key := "b", definitions := [("en", "res/en.json:3")],
               translations := [("en", "B")] })],
    problems := [], referenced := [] }

/-- C4: resolving a template-literal `t(...)` argument yields exactly the
Cartesian product of the interpolated positions' literal-option sets
(`permutate` on a nonempty entries list is the ordinary Cartesian product,
one synthesized string per combination, interleaved with the quasis by
source index), a ternary resolves to the union of both branches' options,
and in particular `` t(`${cond ? 'a' : 'b'}`) `` against defined resources
`a` and `b` resolves to exactly the two literal options — the code collects
the alternate branch first, so the list is `["b", "a"]` — with zero
non-literal expressions, both recorded as references and zero (fatal)
problems. -/
theorem c4_template_permutation :
    (∀ {α : Type} (entries : List (List α)), entries ≠ [] →
        permutate entries = some (cartesianProduct entries))
    ∧ (processNode c4Template).map
        (fun r => (r.stringLiterals.map SLit.value, r.nonLiteralExpressions.length))
        = some (["b", "a"], 0)
    ∧ (walkNode "src/App.tsx" c4Call [] c4State).map
        (fun st' => (st'.problems,
          (mapGet st'.resources "a").map Resource.references,
          (mapGet st'.resources "b").map Resource.references))
        = some ([], some ["src/App.tsx:1"], some ["src/App.tsx:1"]) := by
  refine ⟨fun entries hne => ?_, ?_, ?_⟩
  · simpa [permutate] using permGo_eq_cartesianProduct entries hne []
  · simp [c4Template, processNode, processNodeList, permutate, permGo, permGoValues,
      mergeTemplateCombo, sortByStartIndex, insertByStartIndex, MergePiece.startIndex,
      MergePiece.text]
  · simp [c4Call, c4Template, c4State, walkNode, walkNodeList, processCall,
      processNode, processNodeList, processStringLiteral, referenceUnknownString,
      permutate, permGo, permGoValues, mergeTemplateCombo, sortByStartIndex,
      insertByStartIndex, MergePiece.startIndex, MergePiece.text, mapGet, mapSet,
      formatLocation, isTCallee, isIgnoredNodePath, firstArgumentHasIgnoreDirective,
      hasIgnoreDirective, isIgnoreDirectiveComment, strTrim, isJsWhitespace,
      SNode.typeName, SNode.line, SNode.meta, IGNORE_DIRECTIVE]
    rfl

theorem c4_witness :
    permutate [["b", "a"]] = some (cartesianProduct [["b", "a"]]) :=
  c4_template_permutation.1 [["b", "a"]] (by decide)

/-- The zero-interpolation template literal of `` t(`foo`) ``. -/
def c10Template : SNode := .template [⟨"foo", 3⟩] [] ⟨2, 1, [], []⟩

/-- C10: `processNode` is NOT total — on a template literal with zero
interpolated expressions the TemplateLiteral case calls `permutate` with an
empty entries array, `entries[precursors.length]` is `undefined`, and the
`for...of` over it throws a `TypeError` (modelled by `none`), which
propagates through the call-site walk; the claimed in-bounds access fails
exactly there. -/
theorem c10_zero_interpolation_template_crashes :
    permutate ([] : List (List Nat)) = none
    ∧ processNode c10Template = none
    ∧ walkNode "src/App.tsx"
        (.call (.identCallee "t") [c10Template] ⟨0, 1, [], []⟩) [] ⟨[], [], []⟩ = none := by
  refine ⟨?_, ?_, ?_⟩
  · simp [permutate, permGo]
  · simp [c10Template, processNode, processNodeList, permutate, permGo]
  · simp [c10Template, walkNode, processCall, processNode, processNodeList,
      permutate, permGo, isTCallee, isIgnoredNodePath, firstArgumentHasIgnoreDirective,
      hasIgnoreDirective, isIgnoreDirectiveComment, strTrim, isJsWhitespace,
      SNode.meta, IGNORE_DIRECTIVE]

/-- A map holding `greeting` (defined in `en`) only — a reference to
`greeting_one` must NOT find it, since the reference side applies no
plural-suffix collapse. -/
def c5GreetingState : ScanState :=
  { resources :=
      [("greeting", { key := "greeting", definitions := [("en", "res/en.json:7")] })],
    problems := [], referenced := [] }

/-- C5: each string-literal key K resolved at a `t(...)` call site is looked
up as-is (no plural-suffix collapse): if the map holds a Resource for K with
at least one definition, the call-site location is appended to its
`references` and no problem is emitted; otherwise (absent, or present with
no definitions — a synthesized placeholder) a non-fatal
"Reference to unknown string ..." problem is emitted and a fresh placeholder
Resource with no definitions is put into the map, so later lookups see it.
The last two conjuncts instantiate the no-collapse point: with `greeting`
defined, the literal `greeting_one` is reported unknown and gets its own
placeholder. -/
theorem c5_reference_lookup :
    (∀ (filePath K : String) (i line : Nat) (st : ScanState) (r : Resource),
      mapGet st.resources K = some r → r.definitions ≠ [] →
      processStringLiteral filePath st ⟨K, i, line⟩
        = { st with
            resources := mapSet st.resources K
              { r with references := r.references ++ [formatLocation filePath line] },
            referenced := st.referenced ++ [K] })
    ∧ (∀ (filePath K : String) (i line : Nat) (st : ScanState),
      (mapGet st.resources K = none
        ∨ ∃ r, mapGet st.resources K = some r ∧ r.definitions = []) →
      processStringLiteral filePath st ⟨K, i, line⟩
        = { st with
            problems := st.problems ++
              [⟨"Reference to unknown string '" ++ K ++ "' at "
                  ++ formatLocation filePath line, false⟩],
            resources := mapSet st.resources K
              { key := K, definitions := [], references := [formatLocation filePath line],
                translations := [], isIgnored := false },
            referenced := st.referenced ++ [K] })
    ∧ (processStringLiteral "src/App.tsx" c5GreetingState ⟨"greeting_one", 0, 9⟩).problems
        = [⟨"Reference to unknown string 'greeting_one' at src/App.tsx:9", false⟩]
    ∧ (mapGet (processStringLiteral "src/App.tsx" c5GreetingState
          ⟨"greeting_one", 0, 9⟩).resources "greeting_one").map
        (fun r => (r.definitions, r.references))
        = some ([], ["src/App.tsx:9"]) := by
  refine ⟨?_, ?_, rfl, rfl⟩
  · intro filePath K i line st r h hne
    have hlen : (r.definitions.length != 0) = true := by
      simp [List.length_eq_zero, hne]
    simp only [processStringLiteral, h, hlen, if_true]
  · intro filePath K i line st h
    rcases h with h | ⟨r, h, hdef⟩
    · simp only [processStringLiteral, h, referenceUnknownString]
    · have hlen : (r.definitions.length != 0) = false := by
        simp [hdef]
      simp only [processStringLiteral, h, hlen, Bool.false_eq_true, if_false,
        referenceUnknownString]

theorem c5_witness :
    processStringLiteral "src/App.tsx" c5GreetingState ⟨"greeting", 0, 4⟩
      = { c5GreetingState with
          resources := mapSet c5GreetingState.resources "greeting"
            { key := "greeting", definitions := [("en", "res/en.json:7")],
              references := ["src/App.tsx:4"], translations := [], isIgnored := false },
          referenced := c5GreetingState.referenced ++ ["greeting"] } :=
  c5_reference_lookup.1 "src/App.tsx" "greeting" 0 4 c5GreetingState
    { key := "greeting", definitions := [("en", "res/en.json:7")] } rfl (by decide)

theorem isIgnoredNodePath_of_self (n : SNode) (ancestors : List SNode)
    (h : hasIgnoreDirective n = true) : isIgnoredNodePath n ancestors = true := by
  cases ancestors <;> simp [isIgnoredNodePath, h]

theorem isIgnoredNodePath_of_ancestor :
    ∀ (ancestors : List SNode) (n a : SNode), a ∈ ancestors →
      hasIgnoreDirective a = true → isIgnoredNodePath n ancestors = true := by
  intro ancestors
  induction ancestors with
  | nil =>
    intro n a ha _
    cases ha
  | cons p rest ih =>
    intro n a ha hdir
    rcases List.mem_cons.mp ha with rfl | hmem
    · simp [isIgnoredNodePath, isIgnoredNodePath_of_self a rest hdir]
    · simp [isIgnoredNodePath, ih p a hmem hdir]

/-- `/* i18nspector-ignore */ t('x')` — the directive attached to the call. -/
def c6IgnoredCallSelf : SNode :=
  .call (.identCallee "t") [.stringLiteral "x" ⟨5, 1, [], []⟩]
    ⟨0, 1, [" i18nspector-ignore "], []⟩

/-- `t('x' /* i18nspector-ignore */)` — the directive trailing the first
argument. -/
def c6IgnoredCallArg : SNode :=
  .call (.identCallee "t") [.stringLiteral "x" ⟨2, 1, [], [" i18nspector-ignore "]⟩]
    ⟨0, 1, [], []⟩

/-- `const k = t('x'); // i18nspector-ignore` — the directive on an ancestor
of the call. -/
def c6IgnoredDeclaration : SNode :=
  .wrapper "VariableDeclaration"
    [.call (.identCallee "t") [.stringLiteral "x" ⟨15, 1, [], []⟩] ⟨10, 1, [], []⟩]
    ⟨0, 1, [], [" i18nspector-ignore"]⟩

/-- `/* i18nspector-ignore */ t(t('zzz'))` — a nested call inside an ignored
call. -/
def c6NestedIgnored : SNode :=
  .call (.identCallee "t")
    [.call (.identCallee "t") [.stringLiteral "zzz" ⟨5, 1, [], []⟩] ⟨3, 1, [], []⟩]
    ⟨0, 1, ["i18nspector-ignore"], []⟩

/-- `t('x')` with no directive, for contrast. -/
def c6PlainCall : SNode :=
  .call (.identCallee "t") [.stringLiteral "x" ⟨5, 1, [], []⟩] ⟨0, 1, [], []⟩

/-- C6: a `t(...)` call is exempt from all analysis whenever a comment whose
trimmed text is the bare `i18nspector-ignore` is attached to its first
argument, to the call itself, or to any ancestor node (transitively upward);
the walker then skips the call without contributing problems or references
and without traversing its subtree (so nested calls are not analyzed). The
concrete conjuncts run the three spec forms and the nested form against an
empty map — each leaves the state untouched — while the same call without a
directive produces the unknown-string problem. -/
theorem c6_ignore_directive_exemption :
    (∀ (callee : Callee) (arg : SNode) (args : List SNode) (m : NodeMeta)
        (ancestors : List SNode),
      hasIgnoreDirective arg = true →
      isIgnoredNodePath (.call callee (arg :: args) m) ancestors = true)
    ∧ (∀ (n : SNode) (ancestors : List SNode),
        hasIgnoreDirective n = true → isIgnoredNodePath n ancestors = true)
    ∧ (∀ (n a : SNode) (ancestors : List SNode),
        a ∈ ancestors → hasIgnoreDirective a = true →
        isIgnoredNodePath n ancestors = true)
    ∧ (∀ (filePath : String) (callee : Callee) (args : List SNode) (m : NodeMeta)
        (ancestors : List SNode) (st : ScanState),
        isIgnoredNodePath (.call callee args m) ancestors = true →
        walkNode filePath (.call callee args m) ancestors st = some st)
    ∧ walkNode "src/App.tsx" c6IgnoredCallSelf [] ⟨[], [], []⟩ = some ⟨[], [], []⟩
    ∧ walkNode "src/App.tsx" c6IgnoredCallArg [] ⟨[], [], []⟩ = some ⟨[], [], []⟩
    ∧ walkNode "src/App.tsx" c6IgnoredDeclaration [] ⟨[], [], []⟩ = some ⟨[], [], []⟩
    ∧ walkNode "src/App.tsx" c6NestedIgnored [] ⟨[], [], []⟩ = some ⟨[], [], []⟩
    ∧ (walkNode "src/App.tsx" c6PlainCall [] ⟨[], [], []⟩).map
        (fun st => st.problems)
        = some [⟨"Reference to unknown string 'x' at src/App.tsx:1", false⟩] := by
  refine ⟨?_, ?_, ?_, ?_, ?_, ?_, ?_, ?_, ?_⟩
  · intro callee arg args m ancestors h
    cases ancestors <;>
      simp [isIgnoredNodePath, firstArgumentHasIgnoreDirective, h]
  · intro n ancestors h
    exact isIgnoredNodePath_of_self n ancestors h
  · intro n a ancestors ha hdir
    exact isIgnoredNodePath_of_ancestor ancestors n a ha hdir
  · intro filePath callee args m ancestors st h
    simp [walkNode, h]
  · simp [c6IgnoredCallSelf, walkNode, isIgnoredNodePath,
      firstArgumentHasIgnoreDirective, hasIgnoreDirective, isIgnoreDirectiveComment,
      strTrim, isJsWhitespace, SNode.meta, IGNORE_DIRECTIVE]
  · simp [c6IgnoredCallArg, walkNode, isIgnoredNodePath,
      firstArgumentHasIgnoreDirective, hasIgnoreDirective, isIgnoreDirectiveComment,
      strTrim, isJsWhitespace, SNode.meta, IGNORE_DIRECTIVE]
  · simp [c6IgnoredDeclaration, walkNode, walkNodeList, isIgnoredNodePath,
      firstArgumentHasIgnoreDirective, hasIgnoreDirective, isIgnoreDirectiveComment,
      strTrim, isJsWhitespace, SNode.meta, IGNORE_DIRECTIVE]
  · simp [c6NestedIgnored, walkNode, isIgnoredNodePath,
      firstArgumentHasIgnoreDirective, hasIgnoreDirective, isIgnoreDirectiveComment,
      strTrim, isJsWhitespace, SNode.meta, IGNORE_DIRECTIVE]
  · simp [c6PlainCall, walkNode, walkNodeList, processCall, processNode,
      processNodeList, processStringLiteral, referenceUnknownString, mapGet, mapSet,
      formatLocation, isTCallee, isIgnoredNodePath, firstArgumentHasIgnoreDirective,
      hasIgnoreDirective, isIgnoreDirectiveComment, strTrim, isJsWhitespace,
      SNode.typeName, SNode.line, SNode.meta, IGNORE_DIRECTIVE]
    rfl

def c6WitnessAncestor : SNode :=
  .wrapper "ExpressionStatement" [] ⟨0, 2, [" i18nspector-ignore "], []⟩

theorem c6_witness :
    isIgnoredNodePath (.call (.identCallee "t") [.stringLiteral "y" ⟨4, 2, [], []⟩]
      ⟨2, 2, [], []⟩) [c6WitnessAncestor] = true :=
  c6_ignore_directive_exemption.2.2.1
    (.call (.identCallee "t") [.stringLiteral "y" ⟨4, 2, [], []⟩] ⟨2, 2, [], []⟩)
    c6WitnessAncestor [c6WitnessAncestor] (by simp)
    (by simp [c6WitnessAncestor, hasIgnoreDirective, isIgnoreDirectiveComment,
      strTrim, isJsWhitespace, SNode.meta, IGNORE_DIRECTIVE])

/-- A directory-tree entry as `readdir(..., {withFileTypes: true})` yields
it: a file, or a directory with its own listing in listing order. -/
inductive FSEntry where
  | file (name : String)
  | dir (name : String) (entries : List FSEntry)
deriving Repr

/-- JavaScript regex `\w`: ASCII letters, digits and underscore. -/
def isRegexWordChar (c : Char) : Bool :=
  ('a' ≤ c && c ≤ 'z') || ('A' ≤ c && c ≤ 'Z') || ('0' ≤ c && c ≤ '9') || c == '_'

/-- `tag` occurs at position `i` of `name` with a regex `\b` word boundary
on each side. -/
def wholeWordAt (name tag : List Char) (i : Nat) : Bool :=
  ((name.drop i).take tag.length == tag)
    && (match tag.head? with
        | none => true
        | some first =>
          match i with
          | 0 => true
          | j + 1 =>
            match name.get? j with
            | none => true
            | some prev => isRegexWordChar prev != isRegexWordChar first)
    && (match tag.getLast? with
        | none => true
        | some last =>
          match name.get? (i + tag.length) with
          | none => true
          | some next => isRegexWordChar next != isRegexWordChar last)

/-- The claim's phase-1 criterion for a directory: the name CONTAINS the tag
as a whole word (anywhere). -/
def containsWholeWord (name tag : String) : Bool :=
  (List.range (name.data.length + 1)).any (fun i => wholeWordAt name.data tag.data i)

/-- The directory test `findBaseLanguage` actually performs: the regex
`\b<tag>\b$` (old revision: `\b(en)\b$`; new revision: `^(?<name>.*)\ben\b$`,
the same test) — the tag as a whole word ENDING the name. -/
def dirNameMatchesBaseLanguage (tag name : String) : Bool :=
  (List.range (name.data.length + 1)).any (fun i =>
    wholeWordAt name.data tag.data i
      && (i + tag.data.length == name.data.length))

/-- The file test: the regex `\b<tag>\b.*(?:ext1|ext2|...)$` — the tag as a
whole word, followed anywhere later by one of the configured resource
extensions, which terminates the name. -/
def fileNameMatchesBaseLanguage (tag : String) (extensions : List String)
    (name : String) : Bool :=
  extensions.any (fun ext =>
    strEndsWith name ext
      && (List.range (name.data.length + 1)).any (fun i =>
        wholeWordAt name.data tag.data i
          && decide (i + tag.data.length + ext.data.length ≤ name.data.length)))

/-- Phase 1 of `findBaseLanguage`: the skip
`(!isDirectory || name == 'node_modules') && !isFile` drops exactly the
directories named `node_modules`; every other entry is tested against the
regex for its kind. -/
def phase1Match (tag : String) (extensions : List String) : FSEntry → Bool
  | .file name => fileNameMatchesBaseLanguage tag extensions name
  | .dir name _ => name != "node_modules" && dirNameMatchesBaseLanguage tag name

mutual

/-- `findBaseLanguage` of `utils/resources.ts` over one directory's listing:
phase 1 returns the first entry this level whose name matches; only when no
entry matches does phase 2 recurse into each subdirectory in listing order,
returning the first non-empty result. (Phase 2 has no `node_modules` skip.)
Returns the matched directory entry. -/
def findBaseLanguage (tag : String) (extensions : List String)
    (entries : List FSEntry) : Option FSEntry :=
  match entries.find? (phase1Match tag extensions) with
  | some e => some e
  | none => findInSubdirectories tag extensions entries
termination_by 2 * sizeOf entries + 1

/-- The phase-2 loop: `if (directoryEntry.isDirectory()) { const result =
await findBaseLanguage(...); if (result) return result; }`. -/
def findInSubdirectories (tag : String) (extensions : List String) :
    List FSEntry → Option FSEntry
  | [] => none
  | .dir _ sub :: rest =>
    (match findBaseLanguage tag extensions sub with
     | some result => some result
     | none => findInSubdirectories tag extensions rest)
  | .file _ :: rest => findInSubdirectories tag extensions rest
termination_by l => 2 * sizeOf l

end

/-- The matched entry's name. -/
def FSEntry.entryName : FSEntry → String
  | .file name => name
  | .dir name _ => name

/-- C9 counterexample: the directory name `en-locales` contains the base
tag `en` as a whole word, so by the claim phase 1 matches it at this level
and the search succeeds; the code's regex is end-anchored (`\ben\b$`), the
directory does not match, recursion into it finds nothing, and
`findBaseLanguage` returns `undefined`. -/
theorem c9_whole_word_containment_counterexample :
    containsWholeWord "en-locales" "en" = true
    ∧ (findBaseLanguage "en" [".json"] [.dir "en-locales" []]).map FSEntry.entryName
        = none := by
  refine ⟨rfl, ?_⟩
  simp only [findBaseLanguage, findInSubdirectories]
  decide

/-- C9 amended: `findBaseLanguage` is two-phase per directory. Phase 1 scans
only the current level — skipping directories named `node_modules`, never
files — for the first entry whose name matches the base-language tag as a
whole word AT THE END of the name for a directory, or, for a file, as a
whole word followed (anywhere later) by a configured resource extension
terminating the name. Only if no entry at this level matches does it
recurse into each subdirectory in listing order — including directories
named `node_modules` — returning the first non-empty result. -/
theorem c9_amended_two_phase_search :
    (∀ (tag : String) (extensions : List String) (entries : List FSEntry) (e : FSEntry),
      entries.find? (phase1Match tag extensions) = some e →
      findBaseLanguage tag extensions entries = some e)
    ∧ (∀ (tag : String) (extensions : List String) (entries : List FSEntry),
      entries.find? (phase1Match tag extensions) = none →
      findBaseLanguage tag extensions entries
        = findInSubdirectories tag extensions entries)
    ∧ (∀ (tag : String) (extensions : List String) (name : String)
        (sub rest : List FSEntry),
      findInSubdirectories tag extensions (.dir name sub :: rest)
        = (match findBaseLanguage tag extensions sub with
           | some result => some result
           | none => findInSubdirectories tag extensions rest))
    ∧ dirNameMatchesBaseLanguage "en" "foo-en" = true
    ∧ dirNameMatchesBaseLanguage "en" "en-locales" = false
    ∧ fileNameMatchesBaseLanguage "en" [".json"] "messages-en.json" = true
    ∧ fileNameMatchesBaseLanguage "en" [".json"] "en-messages.json" = true
    ∧ fileNameMatchesBaseLanguage "en" [".json"] "en-messages.txt" = false
    ∧ phase1Match "en" [".json"] (.dir "node_modules" []) = false
    ∧ (findBaseLanguage "en" [".json"] [.dir "node_modules" [.dir "en" []]]).map
        FSEntry.entryName = some "en" := by
  refine ⟨?_, ?_, ?_, rfl, rfl, rfl, rfl, rfl, rfl, ?_⟩
  · intro tag extensions entries e h
    simp only [findBaseLanguage, h]
  · intro tag extensions entries h
    simp only [findBaseLanguage, h]
  · intro tag extensions name sub rest
    simp only [findInSubdirectories]
  · simp only [findBaseLanguage, findInSubdirectories]
    decide

theorem c9_witness :
    findBaseLanguage "en" [".json"] [FSEntry.dir "en" []] = some (FSEntry.dir "en" []) :=
  c9_amended_two_phase_search.1 "en" [".json"] [FSEntry.dir "en" []] (FSEntry.dir "en" [])
    (by rfl)
